import Mathlib

/-!
Verification of the gutowire scanning / tag-parsing / registry / conflict-resolution
pipeline (src/internal/generator/scanner.go, src/internal/generator/cache.go) against
its natural-language specification.

The Go code is shallowly embedded: strings are Lean `String`s manipulated through
their character lists (all tag syntax is ASCII, where Go's byte-wise operations and
character-wise operations agree), Go maps are association lists or function maps,
and filesystem state is passed explicitly.
-/

namespace Gutowire

/-! ### Character-list string primitives

Executable models of the Go `strings` / `bytes` operations used by the scanner.
Go operates on UTF-8 bytes; every pattern these functions are applied to in the
scanner is ASCII, where byte-level and character-level semantics coincide. -/

/-- `hasPfxL pat l`: does `l` start with `pat`? Models `strings.HasPrefix`. -/
def hasPfxL : List Char → List Char → Bool
  | [], _ => true
  | _ :: _, [] => false
  | p :: ps, c :: cs => p = c && hasPfxL ps cs

/-- Substring containment. Models `bytes.Contains` / `strings.Contains`. -/
def containsL (pat : List Char) : List Char → Bool
  | [] => pat.isEmpty
  | c :: cs => hasPfxL pat (c :: cs) || containsL pat cs

/-- String-level prefix test (`strings.HasPrefix(s, pat)`). -/
def strHasPfx (s pat : String) : Bool := hasPfxL pat.data s.data

/-- String-level suffix test (`strings.HasSuffix(s, pat)`). -/
def strHasSfx (s pat : String) : Bool := hasPfxL pat.data.reverse s.data.reverse

/-- String-level containment (`strings.Contains(s, pat)` / `bytes.Contains`). -/
def strContains (s pat : String) : Bool := containsL pat.data s.data

/-- `strings.TrimPrefix(s, pat)`: drop `pat` from the front if present. -/
def trimPfx (s pat : String) : String :=
  if strHasPfx s pat then ⟨s.data.drop pat.data.length⟩ else s

/-- `strings.TrimSuffix(s, pat)`: drop `pat` from the end if present. -/
def trimSfx (s pat : String) : String :=
  if strHasSfx s pat then ⟨s.data.take (s.data.length - pat.data.length)⟩ else s

/-- The whitespace characters Go's `strings.TrimSpace` strips, restricted to
the ASCII ones (exotic Unicode space characters are outside the model). -/
def isSpaceCh (c : Char) : Bool := c = ' ' ∨ c = '\t' ∨ c = '\n' ∨ c = '\r'

/-- `strings.TrimSpace`. -/
def trimSpace (s : String) : String :=
  ⟨((s.data.dropWhile isSpaceCh).reverse.dropWhile isSpaceCh).reverse⟩

/-- Split a character list at every occurrence of `sep`.
Models `strings.Split` with a one-character separator (the scanner only ever
splits on `"\n"`, `","` and `"="`). Always returns a nonempty list. -/
def splitChL (sep : Char) : List Char → List (List Char)
  | [] => [[]]
  | c :: cs =>
    match splitChL sep cs with
    | [] => [[]]
    | g :: gs => if c = sep then [] :: g :: gs else (c :: g) :: gs

/-- String-level split (`strings.Split(s, sep)` for a one-character `sep`). -/
def splitStr (sep : Char) (s : String) : List String :=
  (splitChL sep s.data).map fun l => ⟨l⟩

/-- Index of the first occurrence of `c` (models `strings.IndexRune` where the
characters before the match are such that byte and rune indices agree, as is the
case for the `'('` searches in the scanner: the index is only used to slice at
the match boundary, which is encoding-independent). -/
def idxOfCh (c : Char) : List Char → Option Nat
  | [] => none
  | x :: xs => if x = c then some 0 else (idxOfCh c xs).map (· + 1)

/-- Lexicographic strict order on character lists: Go's `<` on strings
(UTF-8 byte order coincides with code-point order). -/
def charListLt : List Char → List Char → Bool
  | [], [] => false
  | [], _ :: _ => true
  | _ :: _, [] => false
  | a :: as, b :: bs => a < b ∨ (a = b ∧ charListLt as bs)

/-- `a ≤ b` on strings in Go's byte order. -/
def strLe (a b : String) : Bool := ¬ charListLt b.data a.data

/-- Insert into a `strLe`-sorted list, keeping it sorted. -/
def insertSorted (x : String) : List String → List String
  | [] => [x]
  | y :: ys => if strLe x y then x :: y :: ys else y :: insertSorted x ys

/-- Ascending sort of strings. Models `slices.Sort` on `[]string` (and the
sorting inside `parser.SortedKeys`): since equal strings are identical, every
correct ascending sort produces this same list. -/
def sortStrings (l : List String) : List String := l.foldr insertSorted []

/-- `strings.Join(l, sep)` / `strings.Join` via `String.intercalate` semantics. -/
def joinWith (sep : String) : List String → String
  | [] => ""
  | [x] => x
  | x :: y :: ys => x ++ sep ++ joinWith sep (y :: ys)

/-- Wrap in double quotes: the `fmt.Sprintf("\x22%s\x22", s)` idiom. -/
def quoteStr (s : String) : String := "\"" ++ s ++ "\""

/-- Decimal digits of `n`, least significant first, with explicit fuel so the
definition is structural (kernel-reducible). Called with fuel `n + 1`. -/
def natDigitsRev : Nat → Nat → List Nat
  | 0, _ => []
  | fuel + 1, n => if n < 10 then [n] else n % 10 :: natDigitsRev fuel (n / 10)

/-- The numeric value of a little-endian digit list (proof-side inverse). -/
def digitsVal : List Nat → Nat
  | [] => 0
  | d :: ds => d + 10 * digitsVal ds

/-- One decimal digit as a character. -/
def digitChar : Nat → Char
  | 0 => '0' | 1 => '1' | 2 => '2' | 3 => '3' | 4 => '4'
  | 5 => '5' | 6 => '6' | 7 => '7' | 8 => '8' | 9 => '9'
  | _ => '?'

/-- Decimal rendering of a natural number. Models `strconv.Itoa` (the scanner
only ever renders the values `≥ 2` produced by the conflict counter). -/
def itoa (n : Nat) : String := ⟨((natDigitsRev (n + 1) n).map digitChar).reverse⟩

/-- `path.Join` / `filepath.Join` for the two-segment uses in the scanner.
Go additionally cleans `.`/`..` segments; no claim exercises dotted segments. -/
def pathJoin (a b : String) : String :=
  if a = "" then b else if b = "" then a else a ++ "/" ++ b

/-! ### Data model

`Element`, `WireSet` and `tmpDecl` are declared in a generator-package file whose
source is not under `src/`; their fields are fully pinned by their uses in
`scanner.go` and `cache.go` and by §3 of the specification, with Go zero values
as defaults. -/

/-- One injectable unit (generator.Element). -/
structure Element where
  Name : String := ""
  Pkg : String := ""
  PkgPath : String := ""
  Constructor : String := ""
  Implements : List String := []
  Fields : List String := []
  InitWire : Bool := false
  ConfigWire : Bool := false
deriving DecidableEq, Repr

/-- Kind of an object in a Go file scope (`ast.Object.Kind`): the scanner only
distinguishes function objects from everything else. -/
inductive ObjKind where
  | funObj
  | otherObj
deriving DecidableEq, Repr

/-- A struct field as the scanner sees it: the identifier list and the textual
form of the type (used as the name of an embedded field). -/
structure FieldM where
  names : List String
  typeStr : String
deriving DecidableEq, Repr

/-- The type expression of a type declaration, at the granularity the scanner
inspects it (`*ast.StructType` or anything else). -/
inductive TypeExprM where
  | structTy (fields : List FieldM)
  | otherTy
deriving DecidableEq, Repr

/-- One `ast.TypeSpec`: its own doc comment, name and type. -/
structure TypeSpecM where
  doc : String
  name : String
  ty : TypeExprM
deriving DecidableEq, Repr

/-- A top-level declaration (`ast.GenDecl` with its token, or `ast.FuncDecl`). -/
inductive GoDecl where
  | genDecl (tok : String) (doc : String) (specs : List TypeSpecM)
  | funcDecl (doc : String) (name : String)
deriving DecidableEq, Repr

/-- A parsed Go file (`*ast.File`) at the granularity the scanner inspects it.
`imports` holds the literal `Path.Value` strings, quotes included.
`scope` models `File.Scope.Objects` (name of each object and its kind).
`implementMap` carries the result of `getImplement` (internal/desc.go), the
static interface-assertion map `concrete type name → interface name`; its
extraction from value specs is not separately modelled as no claim depends on
its internals. -/
structure GoAst where
  pkgName : String
  imports : List String
  decls : List GoDecl
  scope : List (String × ObjKind)
  implementMap : List (String × String)
deriving DecidableEq, Repr

/-- A source file on disk: its path, its physical lines (as `bufio.Scanner`
yields them), and its parse result (`none` models a `goparser.ParseFile` error). -/
structure GoFile where
  path : String
  lines : List String
  ast : Option GoAst
deriving DecidableEq, Repr

/-- Ephemeral parse-time record (generator.tmpDecl, cf. internal/desc.go). -/
structure TmpDecl where
  docs : String
  name : String
  isFunc : Bool
  typeSpec : Option TypeSpecM
deriving DecidableEq, Repr

/-- One registry insertion, as performed by `addElementToMap`: the collection
name, the declaration-path key, and the element. -/
structure Entry where
  setName : String
  key : String
  elem : Element
deriving DecidableEq, Repr

/-- The searcher configuration: generation path, and the package-path resolution
function. `pkgPathOf` models `parser.GetPkgPath` with the ambient module base
and go.mod directory fixed; its internals (absolute paths, the go.mod
directory) are filesystem-dependent and no claim depends on them. -/
structure SearcherCfg where
  genPath : String
  pkgPathOf : String → String

/-- What scanning one file produced: the registry insertions, whether
`goparser.ParseFile` ran on the file, and whether the circular-import warning
was logged. -/
structure ScanResult where
  elems : List Entry
  parsedFile : Bool
  warned : Bool
deriving DecidableEq, Repr

/-! ### Association-list helpers (Go map model)

Go maps are modelled as association lists with distinct keys; `assocSet`
is Go map assignment (overwrite in place, else append), `assocGet` is lookup
with the zero-value default where the Go code uses one. -/

/-- Lookup in an association list (`m[k]` where presence matters). -/
def assocFind (m : List (String × α)) (k : String) : Option α :=
  (m.find? fun p => p.1 = k).map (·.2)

/-- Lookup with Go's zero-value-for-missing-key semantics on string maps. -/
def assocGetD (m : List (String × String)) (k : String) : String :=
  (assocFind m k).getD ""

/-- Go map assignment `m[k] = v`: overwrite if the key is present, else add. -/
def assocSet (m : List (String × α)) (k : String) (v : α) : List (String × α) :=
  if m.any (fun p => p.1 = k) then
    m.map fun p => if p.1 = k then (k, v) else p
  else m ++ [(k, v)]

/-! ### Tag grammar (scanner.go lines 263-342) -/

/-- The annotation marker (internal/config, `WireTag = "@autowire"`). -/
def wireTag : String := "@autowire"

/-- `parseTagSuffix` (scanner.go 309-323): strip the tag marker, then extract an
optional `.init` / `.config` sub-mode written between the dot and the opening
parenthesis. Returns `(itemFunc, tagStr)`. -/
def parseTagSuffix (tag : String) : String × String :=
  let tagStr : List Char := tag.data.drop wireTag.data.length
  match tagStr with
  | '.' :: _ =>
    match idxOfCh '(' tagStr with
    | some idx => (⟨(tagStr.take idx).drop 1⟩, ⟨tagStr.drop idx⟩)
    | none => ("", ⟨tagStr⟩)
  | _ => ("", ⟨tagStr⟩)

/-- One iteration of the option loop in `parseTagOptions` (scanner.go 330-340):
trim the piece, skip it when empty, otherwise split at `=` into key and
optional value and assign into the options map. -/
def parseTagOptionsStep (m : List (String × String)) (s : String) : List (String × String) :=
  let s := trimSpace s
  if s.data.length = 0 then m
  else
    match splitStr '=' s with
    | [] => m
    | k :: rest =>
      let v := match rest with
        | [] => ""
        | v1 :: _ => trimSpace v1
      assocSet m (trimSpace k) v

/-- `parseTagOptions` (scanner.go 325-342): strip the outer parentheses and
fold the comma-separated pieces into the options map. The Go map's iteration
order is unspecified; the model fixes insertion order, and every settled claim
that could depend on the order carries hypotheses ruling the ambiguity out. -/
def parseTagOptions (tagStr : String) : List (String × String) :=
  let content := trimPfx (trimSfx tagStr ")") "("
  (splitStr ',' content).foldl parseTagOptionsStep []

/-- `createWireElement` (scanner.go 344-351). -/
def createWireElement (decl : TmpDecl) (f : GoAst) (pkgPath : String) : Element :=
  { Name := decl.name, Pkg := f.pkgName, PkgPath := pkgPath }

/-- Does the file scope bind `name` to a function object
(`ct, ok := f.Scope.Objects[name]; ok && ct.Kind == ast.Fun`)? -/
def scopeHasFun (f : GoAst) (name : String) : Bool :=
  assocFind f.scope name = some ObjKind.funObj

/-- The two conventional constructor name beginnings, in the precedence order
the loop in `determineConstructor` tries them. -/
def constructorPres : List String := ["Init", "New"]

/-- `determineConstructor` (scanner.go 353-367): a function declaration is its
own constructor; a type declaration searches the file scope for the first
conventional constructor name. -/
def determineConstructor (wireElement : Element) (decl : TmpDecl) (f : GoAst) : Element :=
  if decl.isFunc then
    { wireElement with Constructor := decl.name }
  else
    match constructorPres.find? (fun p => scopeHasFun f (p ++ decl.name)) with
    | some p => { wireElement with Constructor := p ++ decl.name }
    | none => wireElement

/-- Models the external collaborator `strcase.LowerCamelCase`
(github.com/stoewer/go-strcase): join `_`/`-`/space separated fragments,
capitalising fragment starts, then lower the first character. No settled claim
depends on its internals; the pipeline only pipes collection names through it. -/
def lccAux : Bool → List Char → List Char
  | _, [] => []
  | up, c :: cs =>
    if c = '_' ∨ c = '-' ∨ c = ' ' then lccAux true cs
    else (if up then c.toUpper else c) :: lccAux false cs

/-- See `lccAux`. -/
def lowerCamelCase (s : String) : String :=
  match lccAux false s.data with
  | [] => ""
  | c :: cs => ⟨c.toLower :: cs⟩

/-- `determineSetName` (scanner.go 369-375): missing or empty `set` option
falls back to the sentinel `"unknown"`; otherwise the name is case-normalized. -/
def determineSetName (options : List (String × String)) : String :=
  if (assocGetD options "set").data.length = 0 then "unknown"
  else lowerCamelCase (assocGetD options "set")

/-- One iteration of the option switch in `parseOptions` (scanner.go 377-402).
The state is the element being built and the pending sub-mode marker. -/
def parseOptionsStep (f : GoAst) (st : Element × String) (kv : String × String) : Element × String :=
  if kv.1 = "init" ∨ kv.1 = "config" then (st.1, kv.1)
  else if kv.1 = "set" then st
  else if kv.1 = "new" then
    if scopeHasFun f kv.2 then ({ st.1 with Constructor := kv.2 }, st.2) else st
  else ({ st.1 with Implements := st.1.Implements ++ [kv.1] }, st.2)

/-- `parseOptions` (scanner.go 377-402): fold the option switch over the
options map, starting from the suffix-derived sub-mode marker. -/
def parseOptions (options : List (String × String)) (wireElement : Element) (f : GoAst)
    (itemFunc : String) : Element × String :=
  options.foldl (parseOptionsStep f) (wireElement, itemFunc)

/-- `isValidConfigDeclaration` (scanner.go 441-449). -/
def isValidConfigDeclaration (decl : TmpDecl) : Bool :=
  match decl.typeSpec with
  | none => false
  | some ts =>
    match ts.ty with
    | TypeExprM.structTy fields => fields.length > 0
    | TypeExprM.otherTy => false

/-- `extractFieldName` (scanner.go 451-458): the first identifier of the field,
or the textual type for an embedded field. -/
def extractFieldName (f : FieldM) : String :=
  match f.names with
  | [] => f.typeStr
  | n :: _ => n

/-- `isExportedField` (scanner.go 460-468): first character in `'A'..'Z'`
(Go inspects the first byte; on a non-ASCII first character both give false). -/
def isExportedField (fieldName : String) : Bool :=
  match fieldName.data with
  | [] => false
  | c :: _ => 'A' ≤ c ∧ c ≤ 'Z'

/-- The exported field names of a struct, in field order: the loop body of
`handleConfigFunction` (scanner.go 431-438). -/
def configFieldNames (fields : List FieldM) : List String :=
  (fields.map extractFieldName).filter isExportedField

/-- `handleConfigFunction` (scanner.go 422-439): on a valid struct declaration,
mark the element as a configuration element and append its exported fields. -/
def handleConfigFunction (wireElement : Element) (decl : TmpDecl) : Element :=
  if isValidConfigDeclaration decl then
    match decl.typeSpec with
    | some ts =>
      match ts.ty with
      | TypeExprM.structTy fields =>
        { wireElement with
          ConfigWire := true
          Fields := wireElement.Fields ++ configFieldNames fields }
      | TypeExprM.otherTy => wireElement
    | none => wireElement
  else wireElement

/-- `handleSpecialFunctions` (scanner.go 404-420): the `init` sub-mode marks an
entry point and forces the reserved `init` collection; `config` runs the
configuration handling and forces the `config` collection. -/
def handleSpecialFunctions (itemFunc setName : String) (wireElement : Element)
    (decl : TmpDecl) : Element × String :=
  if itemFunc = "init" then ({ wireElement with InitWire := true }, "init")
  else if itemFunc = "config" then (handleConfigFunction wireElement decl, "config")
  else (wireElement, setName)

/-- `addInterfaceImplementations` (scanner.go 470-476). -/
def addInterfaceImplementations (wireElement : Element)
    (implementMap : List (String × String)) (name : String) : Element :=
  let impl := assocGetD implementMap name
  if impl ≠ "" ∧ ¬ wireElement.Implements.contains impl then
    { wireElement with Implements := wireElement.Implements ++ [impl] }
  else wireElement

/-- `analysisWireTag` (scanner.go 263-307) as a pure function: `none` models
the early returns (no element added, no registry mutation, no error), `some`
carries the insertion handed to `addElementToMap`. The unused `filePath`
parameter of the Go method is dropped. -/
def analysisWireTag (tag pkgPath : String) (decl : TmpDecl) (f : GoAst)
    (implementMap : List (String × String)) : Option Entry :=
  if ¬ strHasPfx tag wireTag then none
  else
    let ft := parseTagSuffix tag
    if ¬ strHasPfx ft.2 "(" ∨ ¬ strHasSfx ft.2 ")" then none
    else
      let options := parseTagOptions ft.2
      let e0 := createWireElement decl f pkgPath
      let e1 := determineConstructor e0 decl f
      let setName0 := determineSetName options
      let est := parseOptions options e1 f ft.1
      let est2 := handleSpecialFunctions est.2 setName0 est.1 decl
      let e4 := addInterfaceImplementations est2.1 implementMap decl.name
      some ⟨est2.2, pathJoin pkgPath decl.name, e4⟩

/-! ### Declaration collection and the per-file scan (scanner.go 95-261) -/

/-- `collectTypeDecls` (scanner.go 205-243): a single-spec `type` declaration is
matched against the group doc comment; inside a grouped declaration each member
is matched against its own doc comment. -/
def collectTypeDecls (doc : String) (specs : List TypeSpecM) : List TmpDecl :=
  if specs.length = 1 ∧ strContains doc wireTag then
    specs.map fun id => ⟨doc, id.name, false, some id⟩
  else
    specs.filterMap fun id =>
      if strContains id.doc wireTag then some ⟨id.doc, id.name, false, some id⟩ else none

/-- `collectAnnotatedDecls` (scanner.go 177-203): walk the top-level
declarations, keeping tagged type specs and tagged function declarations. -/
def collectAnnotatedDecls (f : GoAst) : List TmpDecl :=
  f.decls.flatMap fun d =>
    match d with
    | GoDecl.genDecl tok doc specs =>
      if tok ≠ "type" then [] else collectTypeDecls doc specs
    | GoDecl.funcDecl doc name =>
      if strContains doc wireTag then [⟨doc, name, true, none⟩] else []

/-- `parseAnnotations` (scanner.go 245-255): split each matched declaration's
doc comment into lines and run the tag analysis on each trimmed line, keeping
the insertions it produces. -/
def parseAnnotations (matchDecls : List TmpDecl) (pkgPath : String) (f : GoAst)
    (implementMap : List (String × String)) : List Entry :=
  matchDecls.flatMap fun decl =>
    (splitStr '\n' decl.docs).filterMap fun c =>
      analysisWireTag (trimSpace c) pkgPath decl f implementMap

/-- `quickCheckForTag` (scanner.go 96-120): scan at most the first 100 lines of
the file for the tag substring. -/
def quickCheckForTag (file : GoFile) : Bool :=
  (file.lines.take 100).any fun l => strContains l wireTag

/-- `wouldCauseCircularImport` (scanner.go 165-175): the resolved generation
target's wildcard package path, in quoted import-literal form, is compared
against every import path literal of the file. -/
def wouldCauseCircularImport (cfg : SearcherCfg) (parseFile : GoAst) : Bool :=
  let genPkgPath := quoteStr (cfg.pkgPathOf (pathJoin cfg.genPath "..."))
  parseFile.imports.any fun imp => imp = genPkgPath

/-- `searchWire` (scanner.go 122-163): quick tag check, parse, circular-import
guard, declaration collection and tag interpretation. The result records the
insertions handed to `addElementToMap`, whether `goparser.ParseFile` ran, and
whether the circular-import warning was logged. Note that the function takes
no cache state: the scan pipeline never consults the Cache Manager. -/
def searchWire (cfg : SearcherCfg) (file : GoFile) : Except String ScanResult :=
  if ¬ quickCheckForTag file then
    Except.ok ⟨[], false, false⟩
  else
    match file.ast with
    | none => Except.error ("parse " ++ file.path)
    | some parseFile =>
      if wouldCauseCircularImport cfg parseFile then
        Except.ok ⟨[], true, true⟩
      else
        let matchDecls := collectAnnotatedDecls parseFile
        let implementMap := parseFile.implementMap
        let pkgPath := cfg.pkgPathOf file.path
        Except.ok ⟨parseAnnotations matchDecls pkgPath parseFile implementMap, true, false⟩

/-! ### The registry (scanner.go 478-488) -/

/-- The Collection map: collection name → (declaration path → Element).
A set exists when some key under it is populated. -/
def Registry : Type := String → String → Option Element

/-- The empty registry. -/
def emptyRegistry : Registry := fun _ _ => none

/-- `addElementToMap` (scanner.go 478-488): insert under the collection name,
keyed by `path.Join(pkgPath, name)`; a later insertion at the same key wins. -/
def addElementToMap (m : Registry) (e : Entry) : Registry :=
  fun s p => if s = e.setName ∧ p = e.key then some e.elem else m s p

/-- Fold a sequence of insertions, in order, into the registry: the effect of
some serialization of all lock-protected `addElementToMap` calls of a run. -/
def buildRegistry (l : List Entry) : Registry :=
  l.foldl addElementToMap emptyRegistry

/-- The insertions contributed by one file (empty when the file's scan failed;
a failed scan aborts the run). -/
def fileContribs (cfg : SearcherCfg) (file : GoFile) : List Entry :=
  match searchWire cfg file with
  | Except.ok r => r.elems
  | Except.error _ => []

/-- All insertions of a scan of `files`, in visit order. -/
def scanContribs (cfg : SearcherCfg) (files : List GoFile) : List Entry :=
  files.flatMap (fileContribs cfg)

/-- A sequence of insertions is key-functional when equal (collection, path)
keys always carry the same element — the situation for a scan of a fixed tree,
where the element stored under a declaration path is a function of the
declaring file alone. -/
def KeyFunctional (l : List Entry) : Prop :=
  ∀ e₁ ∈ l, ∀ e₂ ∈ l, e₁.setName = e₂.setName → e₁.key = e₂.key → e₁.elem = e₂.elem

instance (l : List Entry) : Decidable (KeyFunctional l) := by
  unfold KeyFunctional; infer_instance

/-! ### Conflict resolution and emission entries (scanner.go 559-706) -/

/-- State threaded through `resolvePackageConflicts`: the per-set element map
(total function over the keys listed in `order`) and the local `pkgMap`
(short alias → (package path → assigned alias)). -/
structure ResolveState where
  elems : String → Element
  pkgMap : List (String × List (String × String))

/-- One iteration of the loop in `resolvePackageConflicts` (scanner.go 589-618). -/
def resolveStep (st : ResolveState) (elementKey : String) : ResolveState :=
  let elem := st.elems elementKey
  let inner := (assocFind st.pkgMap elem.Pkg).getD []
  if inner.length = 0 then
    { elems := fun k => if k = elementKey then elem else st.elems k
      pkgMap := assocSet st.pkgMap elem.Pkg [(elem.PkgPath, elem.Pkg)] }
  else
    match assocFind inner elem.PkgPath with
    | some pkg =>
      { st with elems := fun k => if k = elementKey then { elem with Pkg := pkg } else st.elems k }
    | none =>
      let fixPkgDuplicate := inner.length + 1
      let newPkg := elem.Pkg ++ itoa fixPkgDuplicate
      { elems := fun k => if k = elementKey then { elem with Pkg := newPkg } else st.elems k
        pkgMap := assocSet st.pkgMap elem.Pkg (assocSet inner elem.PkgPath newPkg) }

/-- `resolvePackageConflicts` (scanner.go 589-618), processing the keys in the
deterministic `order` that `writeSet` obtains from `parser.SortedKeys`. -/
def resolvePackageConflicts (elements : String → Element) (order : List String) :
    String → Element :=
  (order.foldl resolveStep ⟨elements, []⟩).elems

/-- The alias the resolver assigns to the `i`-th element (0-based) of a run of
elements sharing short alias `a` with pairwise distinct package paths: the
first keeps `a`, later ones get `a` with the 2-based running count appended. -/
def aliasAt (a : String) (i : Nat) : String :=
  if i = 0 then a else a ++ itoa (i + 1)

/-- `parser.AppendPkg` (internal/parser/helpers.go 169-175). -/
def appendPkg (pkg sel : String) : String :=
  if pkg.data.length = 0 then sel else pkg ++ "." ++ sel

/-- `handleConfigWireElement` (scanner.go 664-676): sort the fields, render the
`wire.FieldsOf` entry over the sorted quoted names. Returns the element with
its fields sorted (Go sorts the slice in place) and the rendered item. -/
def handleConfigWireElement (elem : Element) (stName : String) : Element × String :=
  let sorted := sortStrings elem.Fields
  let fieldsStr := joinWith ", " (sorted.map quoteStr)
  ({ elem with Fields := sorted },
   "wire.FieldsOf(new(*" ++ stName ++ "), " ++ fieldsStr ++ ")")

/-- The registration lines of `handleNormalWireElement` (scanner.go 678-698):
constructor reference or whole-struct auto-injection, then one binding per
claimed interface. -/
def handleNormalWireElement (elem : Element) (stName : String) : List String :=
  (if elem.Constructor ≠ "" then
    [appendPkg elem.Pkg elem.Constructor]
  else
    ["wire.Struct(new(" ++ stName ++ "), \"*\")"]) ++
  elem.Implements.map fun itf =>
    let itfName := if strContains itf "." then itf else appendPkg elem.Pkg itf
    "wire.Bind(new(" ++ itfName ++ "), new(*" ++ stName ++ "))"

/-! ### The Cache Manager (cache.go) -/

/-- A file on disk as the Cache Manager observes it: its modification time and
its content (bytes). -/
structure FSFile where
  modTime : Int
  content : List Nat
deriving DecidableEq, Repr

/-- A cache entry (cache.go `FileCache`). -/
structure FileCache where
  ModTime : Int
  Elements : List Element
  Hash : String
deriving DecidableEq, Repr

/-- The Cache Manager's observable state (cache.go `CacheManager`): the
per-path entry map and the enabled flag. -/
structure CacheManager where
  cache : List (String × FileCache)
  enabled : Bool
deriving DecidableEq, Repr

/-- Models `calculateHash` (cache.go 175-186), the md5 hex digest of the file
content. The claims only ever compare a stored digest against a recomputed
one, so any total function of the content models the digest faithfully. -/
def calculateHash (content : List Nat) : String :=
  joinWith "." (content.map itoa)

/-- `IsModified` (cache.go 84-115): `(modified, errored)`. Disabled cache
always reports modified; a stat failure (missing file) reports modified with an
error; otherwise the entry must exist, with matching stored modification time,
and matching stored hash against the recomputed content hash. -/
def IsModified (cm : CacheManager) (fs : String → Option FSFile) (filePath : String) :
    Bool × Bool :=
  if cm.enabled = false then (true, false)
  else
    match fs filePath with
    | none => (true, true)
    | some info =>
      match assocFind cm.cache filePath with
      | none => (true, false)
      | some cached =>
        if ¬ (info.modTime = cached.ModTime) then (true, false)
        else (¬ (calculateHash info.content = cached.Hash), false)

/-! ### Spec-side predicate for the malformed-tag claim -/

/-- Balance counter for `specBalancedParens`. -/
def parenBalanceAux : Int → List Char → Bool
  | d, [] => d = 0
  | d, c :: cs =>
    if c = '(' then parenBalanceAux (d + 1) cs
    else if c = ')' then d > 0 && parenBalanceAux (d - 1) cs
    else parenBalanceAux d cs

/-- Spec-side predicate, from the claim's words: the parentheses of the comment
line are properly matched (never closing below depth zero, ending at depth
zero). A line violating this has "missing or mismatched parentheses". -/
def specBalancedParens (s : String) : Bool := parenBalanceAux 0 s.data

/-! ## Theorems -/

/-- C10: for every source file in which the tag substring does not occur within
the first 100 lines, `searchWire` returns success without parsing the file and
the file contributes no elements — even when a tagged declaration appears after
line 100 (the file's declarations are unconstrained here). -/
theorem quick_reject_skips_file (cfg : SearcherCfg) (file : GoFile)
    (h : ∀ l ∈ file.lines.take 100, strContains l wireTag = false) :
    searchWire cfg file = Except.ok ⟨[], false, false⟩ := by
  have hq : quickCheckForTag file = false := by
    unfold quickCheckForTag
    exact List.any_eq_false.mpr fun l hl => by simp [h l hl]
  unfold searchWire
  simp [hq]

/-- Witness for C10: a file whose first 100 lines are tag-free but whose 101st
line carries the tag over a tagged declaration is still skipped unparsed. -/
theorem quick_reject_skips_file_witness :
    searchWire ⟨"wire", fun _ => "m/wire"⟩
      ⟨"a.go", List.replicate 100 "package a" ++ ["// @autowire(set=zoo)"],
       some ⟨"a", [], [GoDecl.funcDecl "@autowire(set=zoo)\n" "NewZoo"], [("NewZoo", ObjKind.funObj)], []⟩⟩ =
      Except.ok ⟨[], false, false⟩ :=
  quick_reject_skips_file _ _ (by decide)

/-- C5: with the cache enabled and the file present on disk,
`CacheManager.IsModified` reports the file unmodified exactly when a cache
entry exists for the path whose stored modification time equals the file's
current modification time and whose stored hash equals the hash recomputed
from the file's current content; either mismatch makes it report modified. -/
theorem isModified_false_iff (cm : CacheManager) (fs : String → Option FSFile)
    (filePath : String) (info : FSFile)
    (hen : cm.enabled = true) (hfs : fs filePath = some info) :
    (IsModified cm fs filePath).1 = false ↔
      ∃ cached, assocFind cm.cache filePath = some cached ∧
        cached.ModTime = info.modTime ∧ cached.Hash = calculateHash info.content := by
  cases hc : assocFind cm.cache filePath with
  | none => simp [IsModified, hen, hfs, hc]
  | some cached =>
    by_cases hmt : info.modTime = cached.ModTime
    · by_cases hh : calculateHash info.content = cached.Hash
      · simp [IsModified, hen, hfs, hc, hmt, hh]
      · simp [IsModified, hen, hfs, hc, hmt, hh]
        intro h
        exact absurd h.symm hh
    · simp [IsModified, hen, hfs, hc, hmt]
      intro h
      exact absurd h.symm hmt

/-- Witness for C5 at a concrete matching cache entry. -/
theorem isModified_false_iff_witness :
    (IsModified ⟨[("a.go", ⟨7, [], calculateHash [1, 2]⟩)], true⟩
        (fun p => if p = "a.go" then some ⟨7, [1, 2]⟩ else none) "a.go").1 = false ↔
      ∃ cached, assocFind [("a.go", (⟨7, [], calculateHash [1, 2]⟩ : FileCache))] "a.go" = some cached ∧
        cached.ModTime = (7 : Int) ∧ cached.Hash = calculateHash [1, 2] :=
  isModified_false_iff _ _ _ _ rfl rfl

/-- C1 (code bug): the scan pipeline never consults the Cache Manager.
`searchWire` takes no cache state at all; for every cache state — even one
whose entry for the file is valid, so that `IsModified` reports the file
unmodified — a file that passes the quick tag check is fully re-parsed
(`parsedFile = true`). The claim (and the repository's own README, which
states the cache is fully integrated and unmodified files skip parsing) says
the cached elements would be served without a re-parse. -/
theorem searchWire_reparses_despite_valid_cache (cfg : SearcherCfg)
    (cm : CacheManager) (fs : String → Option FSFile) (file : GoFile) (ast : GoAst)
    (hcache : IsModified cm fs file.path = (false, false))
    (htag : quickCheckForTag file = true) (hast : file.ast = some ast) :
    ∃ r, searchWire cfg file = Except.ok r ∧ r.parsedFile = true := by
  by_cases hc : wouldCauseCircularImport cfg ast
  · exact ⟨⟨[], true, true⟩, by simp [searchWire, htag, hast, hc], rfl⟩
  · exact ⟨⟨parseAnnotations (collectAnnotatedDecls ast) (cfg.pkgPathOf file.path) ast
        ast.implementMap, true, false⟩, by simp [searchWire, htag, hast, hc], rfl⟩

/-- Witness for C1: a concrete tagged file with a valid cache entry (matching
modification time and content hash) is still re-parsed. -/
theorem searchWire_reparses_despite_valid_cache_witness :
    ∃ r, searchWire ⟨"wire", fun _ => "m/wire"⟩
        ⟨"a.go", ["// @autowire(set=zoo)"],
         some ⟨"a", [], [GoDecl.funcDecl "@autowire(set=zoo)\n" "NewZoo"], [("NewZoo", ObjKind.funObj)], []⟩⟩ =
      Except.ok r ∧ r.parsedFile = true :=
  searchWire_reparses_despite_valid_cache _
    ⟨[("a.go", ⟨3, [], calculateHash [10]⟩)], true⟩
    (fun p => if p = "a.go" then some ⟨3, [10]⟩ else none) _ _
    (by decide) (by decide) rfl

/-- C8: a source file whose import list contains the resolved generation-target
module path (in quoted import-literal form) contributes no element, is skipped
with the warning flag set rather than an error, and its per-file scan returns
success — so the overall scan is not failed by it. Stated for a file the scan
actually reaches past the quick tag check and the parse. -/
theorem circular_import_skipped (cfg : SearcherCfg) (file : GoFile) (ast : GoAst)
    (htag : quickCheckForTag file = true) (hast : file.ast = some ast)
    (himp : quoteStr (cfg.pkgPathOf (pathJoin cfg.genPath "...")) ∈ ast.imports) :
    searchWire cfg file = Except.ok ⟨[], true, true⟩ := by
  have hc : wouldCauseCircularImport cfg ast = true := by
    unfold wouldCauseCircularImport
    exact List.any_eq_true.mpr ⟨_, himp, by simp⟩
  unfold searchWire
  rw [htag, hast]
  simp [hc]

/-- Witness for C8: a concrete tagged file importing the generation target is
excluded with a warning and success. -/
theorem circular_import_skipped_witness :
    searchWire ⟨"wire", fun p => "m/" ++ p⟩
      ⟨"a.go", ["// @autowire(set=zoo)"],
       some ⟨"a", ["\"m/wire/...\""], [GoDecl.funcDecl "@autowire(set=zoo)\n" "NewZoo"],
             [("NewZoo", ObjKind.funObj)], []⟩⟩ =
      Except.ok ⟨[], true, true⟩ :=
  circular_import_skipped _ _ _ (by decide) rfl (by decide)

/-- C9 counterexample: the comment line `@autowire((x)` has mismatched
parentheses (the spec-side balance predicate rejects it), yet tag analysis does
not skip it — it produces an element (which lands in the `unknown` collection
and claims the junk interface `(x`), contradicting the claim that every
malformed line with mismatched parentheses is silently skipped. -/
theorem malformed_tag_processed_counterexample :
    specBalancedParens "@autowire((x)" = false ∧
      analysisWireTag "@autowire((x)" "m/a"
          ⟨"@autowire((x)", "Zoo", false, none⟩ ⟨"zoo", [], [], [], []⟩ [] ≠ none := by
  decide

/-- C9 (amended): tag analysis silently skips a line — producing no element, no
registry mutation and no error — exactly in the delimiter sense the code
checks: whenever, after the tag marker and the optional sub-mode suffix are
stripped, the remainder does not begin with `(` or does not end with `)`.
Parenthesis balance inside the option list is not checked. -/
theorem malformed_tag_skipped (tag pkgPath : String) (decl : TmpDecl) (f : GoAst)
    (implementMap : List (String × String))
    (hbad : ¬ strHasPfx (parseTagSuffix tag).2 "(" ∨ ¬ strHasSfx (parseTagSuffix tag).2 ")") :
    analysisWireTag tag pkgPath decl f implementMap = none := by
  unfold analysisWireTag
  by_cases hp : strHasPfx tag wireTag
  · rw [if_neg (not_not_intro hp), if_pos hbad]
  · rw [if_pos hp]

/-- Witness for C9's amended theorem: a tag line missing its closing
parenthesis is skipped. -/
theorem malformed_tag_skipped_witness :
    analysisWireTag "@autowire(set=a" "m/a"
        ⟨"@autowire(set=a", "Zoo", false, none⟩ ⟨"zoo", [], [], [], []⟩ [] = none :=
  malformed_tag_skipped _ _ _ _ _ (by decide)

theorem parseOptionsStep_constructor (f : GoAst) (st : Element × String) (kv : String × String)
    (h : kv.1 ≠ "new") : ((parseOptionsStep f st kv).1).Constructor = st.1.Constructor := by
  unfold parseOptionsStep
  by_cases h1 : kv.1 = "init" ∨ kv.1 = "config"
  · simp [h1]
  · by_cases h2 : kv.1 = "set"
    · simp [h1, h2]
    · simp [h1, h2, h]

theorem parseOptions_constructor_no_new (f : GoAst) (opts : List (String × String))
    (h : ∀ kv ∈ opts, kv.1 ≠ "new") (e : Element) (i : String) :
    ((parseOptions opts e f i).1).Constructor = e.Constructor := by
  induction opts generalizing e i with
  | nil => rfl
  | cons kv rest ih =>
    have hkv : kv.1 ≠ "new" := h kv (List.mem_cons_self kv rest)
    have hr : ∀ kv' ∈ rest, kv'.1 ≠ "new" := fun kv' hm => h kv' (List.mem_cons_of_mem kv hm)
    show ((parseOptions rest (parseOptionsStep f (e, i) kv).1 f (parseOptionsStep f (e, i) kv).2).1).Constructor = e.Constructor
    rw [ih hr, parseOptionsStep_constructor f (e, i) kv hkv]

theorem parseOptions_constructor (f : GoAst) (opts : List (String × String))
    (hnd : (opts.map Prod.fst).Nodup) (e : Element) (i : String) :
    ((parseOptions opts e f i).1).Constructor =
      match assocFind opts "new" with
      | some v => if scopeHasFun f v then v else e.Constructor
      | none => e.Constructor := by
  induction opts generalizing e i with
  | nil => rfl
  | cons kv rest ih =>
    rcases List.nodup_cons.mp hnd with ⟨hnotin, hndr⟩
    by_cases hkv : kv.1 = "new"
    · have hfind : assocFind (kv :: rest) "new" = some kv.2 := by
        simp [assocFind, List.find?_cons, hkv]
      rw [hfind]
      have hnonew : ∀ kv' ∈ rest, kv'.1 ≠ "new" := by
        intro kv' hm heq
        exact hnotin (hkv ▸ heq ▸ List.mem_map_of_mem Prod.fst hm)
      show ((parseOptions rest (parseOptionsStep f (e, i) kv).1 f (parseOptionsStep f (e, i) kv).2).1).Constructor = _
      rw [parseOptions_constructor_no_new f rest hnonew]
      unfold parseOptionsStep
      have h1 : ¬ (kv.1 = "init" ∨ kv.1 = "config") := by simp [hkv]
      by_cases hsf : scopeHasFun f kv.2
      · simp [h1, hkv, hsf]
      · simp [h1, hkv, hsf]
    · have hfind : assocFind (kv :: rest) "new" = assocFind rest "new" := by
        simp [assocFind, List.find?_cons, hkv]
      rw [hfind]
      show ((parseOptions rest (parseOptionsStep f (e, i) kv).1 f (parseOptionsStep f (e, i) kv).2).1).Constructor = _
      rw [ih hndr]
      rw [parseOptionsStep_constructor f (e, i) kv hkv]

theorem assocSet_keys_nodup (m : List (String × String)) (k v : String)
    (h : (m.map Prod.fst).Nodup) : ((assocSet m k v).map Prod.fst).Nodup := by
  unfold assocSet
  by_cases hin : m.any (fun p => p.1 = k)
  · rw [if_pos hin]
    have : ((m.map fun p => if p.1 = k then (k, v) else p).map Prod.fst) = m.map Prod.fst := by
      rw [List.map_map]
      refine List.map_congr_left ?_
      intro p hp
      by_cases hpk : p.1 = k
      · simp [hpk]
      · simp [hpk]
    rw [this]
    exact h
  · rw [if_neg hin]
    rw [List.map_append]
    rw [List.nodup_append]
    refine ⟨h, List.nodup_singleton k, ?_⟩
    intro a ha hb
    rcases List.mem_map.mp ha with ⟨p, hp, rfl⟩
    rcases List.mem_singleton.mp hb with rfl
    exact hin (List.any_eq_true.mpr ⟨p, hp, by simp⟩)

theorem parseTagOptionsStep_keys_nodup (m : List (String × String)) (s : String)
    (h : (m.map Prod.fst).Nodup) : ((parseTagOptionsStep m s).map Prod.fst).Nodup := by
  unfold parseTagOptionsStep
  by_cases h0 : (trimSpace s).data.length = 0
  · simp only [h0]
    simpa using h
  · simp only [h0]
    cases hs : splitStr '=' (trimSpace s) with
    | nil => simpa using h
    | cons k rest =>
      simp only []
      exact assocSet_keys_nodup _ _ _ h

theorem parseTagOptions_keys_nodup (tagStr : String) :
    ((parseTagOptions tagStr).map Prod.fst).Nodup := by
  have h : ∀ (l : List String) (m : List (String × String)), (m.map Prod.fst).Nodup →
      ((l.foldl parseTagOptionsStep m).map Prod.fst).Nodup := by
    intro l
    induction l with
    | nil => intro m hm; exact hm
    | cons x xs ih =>
      intro m hm
      exact ih _ (parseTagOptionsStep_keys_nodup m x hm)
  show ((List.foldl parseTagOptionsStep [] (splitStr ',' (trimPfx (trimSfx tagStr ")") "("))).map Prod.fst).Nodup
  exact h _ [] (by simp)

theorem handleConfigFunction_constructor (e : Element) (d : TmpDecl) :
    (handleConfigFunction e d).Constructor = e.Constructor := by
  unfold handleConfigFunction
  by_cases hv : isValidConfigDeclaration d
  · cases hts : d.typeSpec with
    | none => simp [hv]
    | some ts =>
      cases hty : ts.ty with
      | structTy fields => simp [hv, hts, hty]
      | otherTy => simp [hv, hts, hty]
  · simp [hv]

theorem handleSpecialFunctions_constructor (i s : String) (e : Element) (d : TmpDecl) :
    ((handleSpecialFunctions i s e d).1).Constructor = e.Constructor := by
  unfold handleSpecialFunctions
  by_cases h1 : i = "init"
  · simp [h1]
  · by_cases h2 : i = "config"
    · simp [h1, h2, handleConfigFunction_constructor]
    · simp [h1, h2]

theorem addInterfaceImplementations_constructor (e : Element)
    (m : List (String × String)) (n : String) :
    (addInterfaceImplementations e m n).Constructor = e.Constructor := by
  show (if assocGetD m n ≠ "" ∧ ¬ e.Implements.contains (assocGetD m n) then
      { e with Implements := e.Implements ++ [assocGetD m n] } else e).Constructor = e.Constructor
  split
  · rfl
  · rfl

/-- C3: for every tagged declaration, constructor resolution yields the
declaration's own name when the declaration is a function, otherwise the first
of the two conventional name beginnings (`Init` before `New`, the documented
precedence) concatenated with the declaration name that names a function in
the same source module, or empty if neither exists; an explicit `new=NAME`
option replaces that result if and only if `NAME` resolves to a function in
the same module, otherwise the automatic result stands. -/
theorem constructor_resolution (tag pkgPath : String) (decl : TmpDecl) (f : GoAst)
    (implementMap : List (String × String)) (entry : Entry)
    (h : analysisWireTag tag pkgPath decl f implementMap = some entry) :
    entry.elem.Constructor =
      match assocFind (parseTagOptions (parseTagSuffix tag).2) "new" with
      | some v =>
        if scopeHasFun f v then v
        else if decl.isFunc then decl.name
        else match constructorPres.find? (fun p => scopeHasFun f (p ++ decl.name)) with
          | some p => p ++ decl.name
          | none => ""
      | none =>
        if decl.isFunc then decl.name
        else match constructorPres.find? (fun p => scopeHasFun f (p ++ decl.name)) with
          | some p => p ++ decl.name
          | none => "" := by
  have hauto : (determineConstructor (createWireElement decl f pkgPath) decl f).Constructor =
      (if decl.isFunc then decl.name
       else match constructorPres.find? (fun p => scopeHasFun f (p ++ decl.name)) with
        | some p => p ++ decl.name
        | none => "") := by
    unfold determineConstructor createWireElement
    by_cases hf : decl.isFunc
    · simp [hf]
    · cases hfind : constructorPres.find? (fun p => scopeHasFun f (p ++ decl.name)) with
      | none => simp [hf, hfind]
      | some p => simp [hf, hfind]
  unfold analysisWireTag at h
  by_cases hp : strHasPfx tag wireTag
  · rw [if_neg (not_not_intro hp)] at h
    by_cases hbad : ¬ strHasPfx (parseTagSuffix tag).2 "(" ∨ ¬ strHasSfx (parseTagSuffix tag).2 ")"
    · rw [if_pos hbad] at h
      exact absurd h (by simp)
    · rw [if_neg hbad] at h
      have he : entry.elem = addInterfaceImplementations
          (handleSpecialFunctions
            (parseOptions (parseTagOptions (parseTagSuffix tag).2)
              (determineConstructor (createWireElement decl f pkgPath) decl f) f (parseTagSuffix tag).1).2
            (determineSetName (parseTagOptions (parseTagSuffix tag).2))
            (parseOptions (parseTagOptions (parseTagSuffix tag).2)
              (determineConstructor (createWireElement decl f pkgPath) decl f) f (parseTagSuffix tag).1).1
            decl).1 implementMap decl.name := by
        have := (Option.some.inj h).symm
        rw [this]
      rw [he, addInterfaceImplementations_constructor, handleSpecialFunctions_constructor]
      rw [parseOptions_constructor f _ (parseTagOptions_keys_nodup _) _ _]
      rw [hauto]
  · rw [if_pos hp] at h
    exact absurd h (by simp)

theorem parseOptionsStep_snd_other (f : GoAst) (st : Element × String) (kv : String × String)
    (hni : kv.1 ≠ "init") (hnc : kv.1 ≠ "config") :
    (parseOptionsStep f st kv).2 = st.2 := by
  unfold parseOptionsStep
  have h1 : ¬ (kv.1 = "init" ∨ kv.1 = "config") := by simp [hni, hnc]
  by_cases h2 : kv.1 = "set"
  · simp [h1, h2]
  · by_cases h3 : kv.1 = "new"
    · by_cases hsf : scopeHasFun f kv.2 <;> simp [h1, h2, h3, hsf]
    · simp [h1, h2, h3]

theorem parseOptions_itemFunc (f : GoAst) (opts : List (String × String))
    (hc : ∀ kv ∈ opts, kv.1 ≠ "config") (e : Element) (i : String) :
    (parseOptions opts e f i).2 =
      if opts.any (fun kv => kv.1 = "init") then "init" else i := by
  induction opts generalizing e i with
  | nil => rfl
  | cons kv rest ih =>
    have hcr : ∀ kv' ∈ rest, kv'.1 ≠ "config" := fun kv' hm => hc kv' (List.mem_cons_of_mem kv hm)
    have hkvc : kv.1 ≠ "config" := hc kv (List.mem_cons_self kv rest)
    by_cases hkvi : kv.1 = "init"
    · have hstep : (parseOptionsStep f (e, i) kv).2 = "init" := by
        unfold parseOptionsStep
        simp [hkvi]
      show (parseOptions rest (parseOptionsStep f (e, i) kv).1 f (parseOptionsStep f (e, i) kv).2).2 = _
      rw [ih hcr, hstep]
      simp [List.any_cons, hkvi]
    · show (parseOptions rest (parseOptionsStep f (e, i) kv).1 f (parseOptionsStep f (e, i) kv).2).2 = _
      rw [ih hcr, parseOptionsStep_snd_other f (e, i) kv hkvi hkvc]
      have hd : decide (kv.1 = "init") = false := by simp [hkvi]
      rw [List.any_cons, hd, Bool.false_or]

theorem handleSpecialFunctions_init (s : String) (e : Element) (d : TmpDecl) :
    handleSpecialFunctions "init" s e d = ({ e with InitWire := true }, "init") := by
  unfold handleSpecialFunctions
  simp

theorem addInterfaceImplementations_initWire (e : Element)
    (m : List (String × String)) (n : String) :
    (addInterfaceImplementations e m n).InitWire = e.InitWire := by
  show (if assocGetD m n ≠ "" ∧ ¬ e.Implements.contains (assocGetD m n) then
      { e with Implements := e.Implements ++ [assocGetD m n] } else e).InitWire = e.InitWire
  split
  · rfl
  · rfl

/-- C6: for every declaration tagged with the init sub-mode — whether written
as the `.init` suffix or as the bare `init` option key, the two forms being
interchangeable in the disjunctive hypothesis — the resulting element is
placed in the reserved `init` collection with its entry-point flag set,
regardless of any `set=` option in the same tag (no hypothesis constrains
`set`). The hypothesis excluding a `config` option key rules out the one
interaction the claim does not speak about. -/
theorem init_submode_forces_init_collection (tag pkgPath : String) (decl : TmpDecl) (f : GoAst)
    (implementMap : List (String × String)) (entry : Entry)
    (h : analysisWireTag tag pkgPath decl f implementMap = some entry)
    (hnoconfig : ∀ kv ∈ parseTagOptions (parseTagSuffix tag).2, kv.1 ≠ "config")
    (hinit : (parseTagSuffix tag).1 = "init" ∨
      ∃ kv ∈ parseTagOptions (parseTagSuffix tag).2, kv.1 = "init") :
    entry.setName = "init" ∧ entry.elem.InitWire = true := by
  unfold analysisWireTag at h
  by_cases hp : strHasPfx tag wireTag
  · rw [if_neg (not_not_intro hp)] at h
    by_cases hbad : ¬ strHasPfx (parseTagSuffix tag).2 "(" ∨ ¬ strHasSfx (parseTagSuffix tag).2 ")"
    · rw [if_pos hbad] at h
      exact absurd h (by simp)
    · rw [if_neg hbad] at h
      have hitem : (parseOptions (parseTagOptions (parseTagSuffix tag).2)
          (determineConstructor (createWireElement decl f pkgPath) decl f) f
          (parseTagSuffix tag).1).2 = "init" := by
        rw [parseOptions_itemFunc f _ hnoconfig]
        rcases hinit with hi | ⟨kv, hm, hk⟩
        · by_cases hany : (parseTagOptions (parseTagSuffix tag).2).any (fun kv => kv.1 = "init")
          · rw [if_pos hany]
          · rw [if_neg hany, hi]
        · rw [if_pos (List.any_eq_true.mpr ⟨kv, hm, by simp [hk]⟩)]
      have he : entry = ⟨(handleSpecialFunctions
            (parseOptions (parseTagOptions (parseTagSuffix tag).2)
              (determineConstructor (createWireElement decl f pkgPath) decl f) f (parseTagSuffix tag).1).2
            (determineSetName (parseTagOptions (parseTagSuffix tag).2))
            (parseOptions (parseTagOptions (parseTagSuffix tag).2)
              (determineConstructor (createWireElement decl f pkgPath) decl f) f (parseTagSuffix tag).1).1
            decl).2, pathJoin pkgPath decl.name,
          addInterfaceImplementations (handleSpecialFunctions
            (parseOptions (parseTagOptions (parseTagSuffix tag).2)
              (determineConstructor (createWireElement decl f pkgPath) decl f) f (parseTagSuffix tag).1).2
            (determineSetName (parseTagOptions (parseTagSuffix tag).2))
            (parseOptions (parseTagOptions (parseTagSuffix tag).2)
              (determineConstructor (createWireElement decl f pkgPath) decl f) f (parseTagSuffix tag).1).1
            decl).1 implementMap decl.name⟩ := by
        have h2 := (Option.some.inj h).symm
        rw [h2]
      rw [he, hitem, handleSpecialFunctions_init]
      exact ⟨rfl, by rw [addInterfaceImplementations_initWire]⟩
  · rw [if_pos hp] at h
    exact absurd h (by simp)

/-- Witness for C3: `new=Build` with `Build` a function in scope yields
constructor `Build`. -/
theorem constructor_resolution_witness :
    (Entry.elem ⟨"zoo", "m/a/Zoo", ⟨"Zoo", "zoo", "m/a", "Build", [], [], false, false⟩⟩).Constructor = "Build" :=
  constructor_resolution "@autowire(set=zoo,new=Build)" "m/a" ⟨"@autowire(set=zoo,new=Build)", "Zoo", false, none⟩
    ⟨"zoo", [], [], [("Build", ObjKind.funObj), ("NewZoo", ObjKind.funObj)], []⟩ [] _ (by decide)

/-- Witness for C6: `@autowire.init(set=zoo)` lands in the `init` collection
with the entry-point flag set, despite `set=zoo`. -/
theorem init_submode_forces_init_collection_witness :
    (⟨"init", "m/a/Zoo", ⟨"Zoo", "zoo", "m/a", "NewZoo", [], [], true, false⟩⟩ : Entry).setName = "init" ∧
    (⟨"init", "m/a/Zoo", ⟨"Zoo", "zoo", "m/a", "NewZoo", [], [], true, false⟩⟩ : Entry).elem.InitWire = true :=
  init_submode_forces_init_collection "@autowire.init(set=zoo)" "m/a" ⟨"@autowire.init(set=zoo)", "Zoo", false, none⟩
    ⟨"zoo", [], [], [("NewZoo", ObjKind.funObj)], []⟩ [] _ (by decide) (by decide) (Or.inl (by decide))

theorem charListLt_irrefl : ∀ (a : List Char), charListLt a a = false
  | [] => rfl
  | c :: cs => by
    have ih := charListLt_irrefl cs
    simp [charListLt, ih]

theorem charListLt_trans : ∀ (a b c : List Char),
    charListLt a b = true → charListLt b c = true → charListLt a c = true
  | [], _ :: _, _ :: _, _, _ => by simp [charListLt]
  | x :: xs, y :: ys, z :: zs, hab, hbc => by
    simp only [charListLt, decide_eq_true_eq] at hab hbc ⊢
    rcases hab with hxy | ⟨rfl, hxy⟩
    · rcases hbc with hyz | ⟨rfl, hyz⟩
      · exact Or.inl (lt_trans hxy hyz)
      · exact Or.inl hxy
    · rcases hbc with hyz | ⟨rfl, hyz⟩
      · exact Or.inl hyz
      · exact Or.inr ⟨rfl, charListLt_trans _ _ _ hxy hyz⟩

theorem charListLt_total : ∀ (a b : List Char),
    charListLt a b = true ∨ a = b ∨ charListLt b a = true
  | [], [] => Or.inr (Or.inl rfl)
  | [], _ :: _ => Or.inl (by simp [charListLt])
  | _ :: _, [] => Or.inr (Or.inr (by simp [charListLt]))
  | x :: xs, y :: ys => by
    rcases lt_trichotomy x y with hxy | rfl | hyx
    · exact Or.inl (by simp [charListLt, hxy])
    · rcases charListLt_total xs ys with h | rfl | h
      · exact Or.inl (by simp [charListLt, h])
      · exact Or.inr (Or.inl rfl)
      · exact Or.inr (Or.inr (by simp [charListLt, h]))
    · exact Or.inr (Or.inr (by simp [charListLt, hyx]))

theorem strLe_total (a b : String) : strLe a b = true ∨ strLe b a = true := by
  rcases charListLt_total a.data b.data with h | h | h
  · left
    simp only [strLe, decide_eq_true_eq]
    intro hc
    have := charListLt_trans _ _ _ h hc
    rw [charListLt_irrefl] at this
    cases this
  · right
    simp only [strLe, decide_eq_true_eq]
    rw [h, charListLt_irrefl]
    simp
  · right
    simp only [strLe, decide_eq_true_eq]
    intro hc
    have := charListLt_trans _ _ _ h hc
    rw [charListLt_irrefl] at this
    cases this

theorem strLe_trans (a b c : String) (hab : strLe a b = true) (hbc : strLe b c = true) :
    strLe a c = true := by
  simp only [strLe, decide_eq_true_eq] at hab hbc ⊢
  intro hca
  rcases charListLt_total c.data b.data with h | h | h
  · exact hbc h
  · exact hab (h ▸ hca)
  · exact hab (charListLt_trans _ _ _ h hca)

theorem insertSorted_perm (x : String) : ∀ (l : List String), (insertSorted x l).Perm (x :: l)
  | [] => List.Perm.refl _
  | y :: ys => by
    unfold insertSorted
    by_cases h : strLe x y
    · rw [if_pos h]
    · rw [if_neg h]
      exact (List.Perm.cons y (insertSorted_perm x ys)).trans (List.Perm.swap x y ys)

theorem mem_insertSorted (x z : String) (l : List String) :
    z ∈ insertSorted x l ↔ z = x ∨ z ∈ l := by
  rw [(insertSorted_perm x l).mem_iff]
  simp

theorem insertSorted_sorted (x : String) : ∀ (l : List String),
    List.Pairwise (fun a b => strLe a b = true) l →
    List.Pairwise (fun a b => strLe a b = true) (insertSorted x l)
  | [], _ => List.Pairwise.cons (by intro b hb; cases hb) List.Pairwise.nil
  | y :: ys, hp => by
    rcases List.pairwise_cons.mp hp with ⟨hy, hys⟩
    unfold insertSorted
    by_cases h : strLe x y
    · rw [if_pos h]
      refine List.pairwise_cons.mpr ⟨?_, hp⟩
      intro b hb
      rcases List.mem_cons.mp hb with rfl | hb
      · exact h
      · exact strLe_trans x y b h (hy b hb)
    · rw [if_neg h]
      refine List.pairwise_cons.mpr ⟨?_, insertSorted_sorted x ys hys⟩
      intro b hb
      rcases (mem_insertSorted x b ys).mp hb with rfl | hb
      · rcases strLe_total y b with hh | hh
        · exact hh
        · exact absurd hh h
      · exact hy b hb

theorem sortStrings_perm : ∀ (l : List String), (sortStrings l).Perm l
  | [] => List.Perm.refl _
  | x :: xs => by
    show (insertSorted x (sortStrings xs)).Perm (x :: xs)
    exact (insertSorted_perm x (sortStrings xs)).trans (List.Perm.cons x (sortStrings_perm xs))

theorem sortStrings_sorted : ∀ (l : List String),
    List.Pairwise (fun a b => strLe a b = true) (sortStrings l)
  | [] => List.Pairwise.nil
  | x :: xs => insertSorted_sorted x (sortStrings xs) (sortStrings_sorted xs)

/-- C7: for every struct declaration tagged as a configuration element (a
present struct type with at least one field), the element's fields list is
exactly the struct's exported field names — a field whose name begins with an
ASCII uppercase letter — with no unexported name, and the rendered
field-extraction entry lists those names in sorted order (the sort being a
`strLe`-sorted permutation). -/
theorem config_fields_exact (decl : TmpDecl) (ts : TypeSpecM) (fields : List FieldM) (e0 : Element)
    (stName : String)
    (h1 : decl.typeSpec = some ts) (h2 : ts.ty = TypeExprM.structTy fields)
    (h3 : fields ≠ []) (he : e0.Fields = []) :
    (handleConfigFunction e0 decl).ConfigWire = true ∧
    (handleConfigFunction e0 decl).Fields = (fields.map extractFieldName).filter isExportedField ∧
    (∀ n, n ∈ (handleConfigFunction e0 decl).Fields ↔
      (n ∈ fields.map extractFieldName ∧ isExportedField n = true)) ∧
    (handleConfigWireElement (handleConfigFunction e0 decl) stName).2 =
      "wire.FieldsOf(new(*" ++ stName ++ "), " ++
        joinWith ", " ((sortStrings ((fields.map extractFieldName).filter isExportedField)).map quoteStr) ++ ")" ∧
    (sortStrings ((fields.map extractFieldName).filter isExportedField)).Perm
      ((fields.map extractFieldName).filter isExportedField) ∧
    List.Pairwise (fun a b => strLe a b = true)
      (sortStrings ((fields.map extractFieldName).filter isExportedField)) := by
  obtain ⟨tdoc, tname, tty⟩ := ts
  simp only at h2
  subst h2
  have hv : isValidConfigDeclaration decl = true := by
    unfold isValidConfigDeclaration
    rw [h1]
    simpa using List.length_pos.mpr h3
  have hcf : handleConfigFunction e0 decl =
      { e0 with ConfigWire := true, Fields := e0.Fields ++ configFieldNames fields } := by
    unfold handleConfigFunction
    rw [if_pos hv, h1]
  rw [hcf, he]
  refine ⟨rfl, rfl, ?_, rfl, sortStrings_perm _, sortStrings_sorted _⟩
  intro n
  show n ∈ (fields.map extractFieldName).filter isExportedField ↔ _
  rw [List.mem_filter]

/-- Witness for C7: a struct with fields `Host` (exported) and `port`
(unexported) keeps exactly `Host`. -/
theorem config_fields_exact_witness :
    (handleConfigFunction ⟨"Conf", "cfg", "m/cfg", "", [], [], false, false⟩
      ⟨"@autowire.config(set=c)", "Conf", false,
        some ⟨"", "Conf", TypeExprM.structTy [⟨["Host"], "string"⟩, ⟨["port"], "int"⟩]⟩⟩).ConfigWire = true ∧
    (handleConfigFunction ⟨"Conf", "cfg", "m/cfg", "", [], [], false, false⟩
      ⟨"@autowire.config(set=c)", "Conf", false,
        some ⟨"", "Conf", TypeExprM.structTy [⟨["Host"], "string"⟩, ⟨["port"], "int"⟩]⟩⟩).Fields =
      (([⟨["Host"], "string"⟩, ⟨["port"], "int"⟩] : List FieldM).map extractFieldName).filter isExportedField ∧
    (∀ n, n ∈ (handleConfigFunction ⟨"Conf", "cfg", "m/cfg", "", [], [], false, false⟩
      ⟨"@autowire.config(set=c)", "Conf", false,
        some ⟨"", "Conf", TypeExprM.structTy [⟨["Host"], "string"⟩, ⟨["port"], "int"⟩]⟩⟩).Fields ↔
      (n ∈ ([⟨["Host"], "string"⟩, ⟨["port"], "int"⟩] : List FieldM).map extractFieldName ∧
        isExportedField n = true)) ∧
    (handleConfigWireElement (handleConfigFunction ⟨"Conf", "cfg", "m/cfg", "", [], [], false, false⟩
      ⟨"@autowire.config(set=c)", "Conf", false,
        some ⟨"", "Conf", TypeExprM.structTy [⟨["Host"], "string"⟩, ⟨["port"], "int"⟩]⟩⟩) "cfg.Conf").2 =
      "wire.FieldsOf(new(*" ++ "cfg.Conf" ++ "), " ++
        joinWith ", " ((sortStrings ((([⟨["Host"], "string"⟩, ⟨["port"], "int"⟩] : List FieldM).map
          extractFieldName).filter isExportedField)).map quoteStr) ++ ")" ∧
    (sortStrings ((([⟨["Host"], "string"⟩, ⟨["port"], "int"⟩] : List FieldM).map
        extractFieldName).filter isExportedField)).Perm
      ((([⟨["Host"], "string"⟩, ⟨["port"], "int"⟩] : List FieldM).map extractFieldName).filter
        isExportedField) ∧
    List.Pairwise (fun a b => strLe a b = true)
      (sortStrings ((([⟨["Host"], "string"⟩, ⟨["port"], "int"⟩] : List FieldM).map
        extractFieldName).filter isExportedField)) :=
  config_fields_exact _ _ _ _ _ rfl rfl (by decide) rfl

theorem natDigitsRev_val : ∀ (fuel n : Nat), n < fuel →
    digitsVal (natDigitsRev fuel n) = n := by
  intro fuel
  induction fuel with
  | zero => intro n h; cases h
  | succ fuel ih =>
    intro n h
    unfold natDigitsRev
    by_cases h10 : n < 10
    · simp [h10, digitsVal]
    · rw [if_neg h10]
      have hrec : n / 10 < fuel := by
        have h1 : n / 10 < n := Nat.div_lt_self (by omega) (by omega)
        omega
      show n % 10 + 10 * digitsVal (natDigitsRev fuel (n / 10)) = n
      rw [ih _ hrec]
      omega

theorem natDigitsRev_lt10 : ∀ (fuel n : Nat), ∀ d ∈ natDigitsRev fuel n, d < 10 := by
  intro fuel
  induction fuel with
  | zero => intro n d hd; cases hd
  | succ fuel ih =>
    intro n d hd
    unfold natDigitsRev at hd
    by_cases h10 : n < 10
    · rw [if_pos h10] at hd
      rcases List.mem_singleton.mp hd with rfl
      exact h10
    · rw [if_neg h10] at hd
      rcases List.mem_cons.mp hd with rfl | hd
      · exact Nat.mod_lt n (by omega)
      · exact ih _ d hd

theorem digitChar_inj : ∀ d < 10, ∀ e < 10, digitChar d = digitChar e → d = e := by
  decide

theorem map_digitChar_inj : ∀ (l1 l2 : List Nat), (∀ d ∈ l1, d < 10) → (∀ d ∈ l2, d < 10) →
    l1.map digitChar = l2.map digitChar → l1 = l2
  | [], [], _, _, _ => rfl
  | [], _ :: _, _, _, h => by cases h
  | _ :: _, [], _, _, h => by cases h
  | d1 :: t1, d2 :: t2, h1, h2, h => by
    rcases List.cons.inj h with ⟨hd, ht⟩
    have hde : d1 = d2 :=
      digitChar_inj d1 (h1 d1 (List.mem_cons_self d1 t1)) d2 (h2 d2 (List.mem_cons_self d2 t2)) hd
    have hte : t1 = t2 := map_digitChar_inj t1 t2
      (fun d hd => h1 d (List.mem_cons_of_mem d1 hd))
      (fun d hd => h2 d (List.mem_cons_of_mem d2 hd)) ht
    rw [hde, hte]

theorem itoa_inj (m n : Nat) (h : itoa m = itoa n) : m = n := by
  have hdata : ((natDigitsRev (m + 1) m).map digitChar).reverse =
      ((natDigitsRev (n + 1) n).map digitChar).reverse := congrArg String.data h
  have hmap : (natDigitsRev (m + 1) m).map digitChar = (natDigitsRev (n + 1) n).map digitChar :=
    List.reverse_injective hdata
  have hdig : natDigitsRev (m + 1) m = natDigitsRev (n + 1) n :=
    map_digitChar_inj _ _ (natDigitsRev_lt10 _ m) (natDigitsRev_lt10 _ n) hmap
  have hm := natDigitsRev_val (m + 1) m (Nat.lt_succ_self m)
  have hn := natDigitsRev_val (n + 1) n (Nat.lt_succ_self n)
  rw [← hm, ← hn, hdig]

theorem natDigitsRev_ne_nil (n : Nat) : natDigitsRev (n + 1) n ≠ [] := by
  unfold natDigitsRev
  by_cases h10 : n < 10
  · simp [h10]
  · simp [h10]

theorem itoa_data_ne_nil (n : Nat) : (itoa n).data ≠ [] := by
  show ((natDigitsRev (n + 1) n).map digitChar).reverse ≠ []
  intro h
  exact natDigitsRev_ne_nil n (by
    have := congrArg List.reverse h
    rw [List.reverse_reverse] at this
    exact List.map_eq_nil_iff.mp this)

theorem aliasAt_inj (a : String) (i j : Nat) (hij : i ≠ j) : aliasAt a i ≠ aliasAt a j := by
  intro h
  unfold aliasAt at h
  rcases Nat.eq_zero_or_pos i with rfl | hi
  · rw [if_pos rfl, if_neg (Ne.symm hij)] at h
    have hd : a.data = a.data ++ (itoa (j + 1)).data := congrArg String.data h
    have : (itoa (j + 1)).data = [] := by
      have hlen := congrArg List.length hd
      rw [List.length_append] at hlen
      have : (itoa (j + 1)).data.length = 0 := by omega
      exact List.length_eq_zero.mp this
    exact itoa_data_ne_nil (j + 1) this
  · rcases Nat.eq_zero_or_pos j with rfl | hj
    · rw [if_neg (by omega), if_pos rfl] at h
      have hd : a.data ++ (itoa (i + 1)).data = a.data := congrArg String.data h
      have : (itoa (i + 1)).data = [] := by
        have hlen := congrArg List.length hd
        rw [List.length_append] at hlen
        have : (itoa (i + 1)).data.length = 0 := by omega
        exact List.length_eq_zero.mp this
      exact itoa_data_ne_nil (i + 1) this
    · rw [if_neg (by omega), if_neg (by omega)] at h
      have hd : a.data ++ (itoa (i + 1)).data = a.data ++ (itoa (j + 1)).data :=
        congrArg String.data h
      have hsuf : (itoa (i + 1)).data = (itoa (j + 1)).data := List.append_cancel_left hd
      have : itoa (i + 1) = itoa (j + 1) := by
        cases hText : itoa (i + 1) with
        | mk d1 =>
          cases hText2 : itoa (j + 1) with
          | mk d2 =>
            rw [hText, hText2] at hsuf
            simp at hsuf
            rw [hsuf]
      have := itoa_inj _ _ this
      omega

theorem resolveStep_elems_other (st : ResolveState) (k k' : String) (h : k' ≠ k) :
    (resolveStep st k).elems k' = st.elems k' := by
  unfold resolveStep
  by_cases h0 : ((assocFind st.pkgMap (st.elems k).Pkg).getD []).length = 0
  · simp only [h0]
    simp [h]
  · simp only [h0]
    cases hf : assocFind ((assocFind st.pkgMap (st.elems k).Pkg).getD []) (st.elems k).PkgPath with
    | some pkg => simp [hf, h]
    | none => simp [hf, h]

theorem foldl_resolve_elems_not_mem : ∀ (l : List String) (st : ResolveState) (k : String),
    k ∉ l → (l.foldl resolveStep st).elems k = st.elems k
  | [], _, _, _ => rfl
  | x :: xs, st, k, h => by
    have hk : k ≠ x := fun he => h (he ▸ List.mem_cons_self x xs)
    have hxs : k ∉ xs := fun hm => h (List.mem_cons_of_mem x hm)
    show ((xs.foldl resolveStep (resolveStep st x)).elems k) = st.elems k
    rw [foldl_resolve_elems_not_mem xs (resolveStep st x) k hxs]
    exact resolveStep_elems_other st x k hk

theorem assocFind_none_not_any (m : List (String × String)) (k : String)
    (h : assocFind m k = none) : m.any (fun p => p.1 = k) = false := by
  rw [List.any_eq_false]
  intro p hp
  simp only [decide_eq_true_eq]
  intro hk
  have : m.find? (fun p => p.1 = k) ≠ none := by
    intro hn
    rw [List.find?_eq_none] at hn
    exact hn p hp (by simp [hk])
  unfold assocFind at h
  cases hf : m.find? (fun p => p.1 = k) with
  | none => exact this hf
  | some q => rw [hf] at h; cases h

theorem assocSet_fresh (m : List (String × String)) (k v : String)
    (h : assocFind m k = none) : assocSet m k v = m ++ [(k, v)] := by
  unfold assocSet
  rw [if_neg (by rw [assocFind_none_not_any m k h]; simp)]

theorem assocFind_append_single_none (m : List (String × String)) (k p v : String)
    (hm : assocFind m k = none) (hk : k ≠ p) : assocFind (m ++ [(p, v)]) k = none := by
  unfold assocFind at hm ⊢
  rw [List.find?_append]
  cases hf : m.find? (fun q => q.1 = k) with
  | some q => rw [hf] at hm; cases hm
  | none =>
    simp only [Option.none_or]
    simp [List.find?, hk.symm]

theorem assocFind_single_self (a : String) (v : List (String × String)) :
    assocFind [(a, v)] a = some v := by
  simp [assocFind, List.find?]

theorem assocSet_single_overwrite (a : String) (v w : List (String × String)) :
    assocSet [(a, v)] a w = [(a, w)] := by
  unfold assocSet
  rw [if_pos (by simp)]
  simp

theorem resolveStep_conflict (E' : String → Element) (a : String)
    (inner : List (String × String)) (k : String) (hne : inner ≠ [])
    (ha : (E' k).Pkg = a)
    (hb : assocFind inner (E' k).PkgPath = none) :
    resolveStep ⟨E', [(a, inner)]⟩ k =
      ⟨fun k' => if k' = k then { E' k with Pkg := a ++ itoa (inner.length + 1) } else E' k',
       [(a, assocSet inner (E' k).PkgPath (a ++ itoa (inner.length + 1)))]⟩ := by
  have hlen : ¬ inner.length = 0 := fun h => hne (List.length_eq_zero.mp h)
  simp only [resolveStep, ha, assocFind_single_self, Option.getD_some]
  rw [if_neg hlen, hb]
  rw [assocSet_single_overwrite]

theorem resolve_run (a : String) : ∀ (rest : List String) (E' : String → Element)
    (inner : List (String × String)),
    inner ≠ [] →
    rest.Nodup →
    (∀ k ∈ rest, (E' k).Pkg = a) →
    (∀ k ∈ rest, assocFind inner (E' k).PkgPath = none) →
    (∀ k1 ∈ rest, ∀ k2 ∈ rest, (E' k1).PkgPath = (E' k2).PkgPath → k1 = k2) →
    ∀ i (hi : i < rest.length),
      ((rest.foldl resolveStep ⟨E', [(a, inner)]⟩).elems (rest.get ⟨i, hi⟩)) =
        { E' (rest.get ⟨i, hi⟩) with Pkg := a ++ itoa (inner.length + i + 1) }
  | [], _, _, _, _, _, _, _ => by
    intro i hi
    cases hi
  | k0 :: rest, E', inner, hne, hnd, halias, hfresh, hinj => by
    intro i hi
    rcases List.nodup_cons.mp hnd with ⟨hk0, hndr⟩
    have ha0 : (E' k0).Pkg = a := halias k0 (List.mem_cons_self k0 rest)
    have hb0 : assocFind inner (E' k0).PkgPath = none :=
      hfresh k0 (List.mem_cons_self k0 rest)
    have hstep := resolveStep_conflict E' a inner k0 hne ha0 hb0
    have hfold : (k0 :: rest).foldl resolveStep ⟨E', [(a, inner)]⟩ =
        rest.foldl resolveStep (resolveStep ⟨E', [(a, inner)]⟩ k0) := rfl
    rw [hfold, hstep]
    set E2 : String → Element :=
      fun k' => if k' = k0 then { E' k0 with Pkg := a ++ itoa (inner.length + 1) } else E' k'
      with hE2
    set inner2 := assocSet inner (E' k0).PkgPath (a ++ itoa (inner.length + 1)) with hinner2
    have hinner2eq : inner2 = inner ++ [((E' k0).PkgPath, a ++ itoa (inner.length + 1))] := by
      rw [hinner2]
      exact assocSet_fresh _ _ _ hb0
    have hlen2 : inner2.length = inner.length + 1 := by
      rw [hinner2eq, List.length_append]
      rfl
    have hE2other : ∀ k ∈ rest, E2 k = E' k := by
      intro k hk
      rw [hE2]
      have : k ≠ k0 := fun he => hk0 (he ▸ hk)
      simp [this]
    cases i with
    | zero =>
      have hget : (k0 :: rest).get ⟨0, hi⟩ = k0 := rfl
      rw [hget]
      rw [foldl_resolve_elems_not_mem rest _ k0 hk0]
      show E2 k0 = _
      rw [hE2]
      simp
    | succ i =>
      have hget : (k0 :: rest).get ⟨i + 1, hi⟩ = rest.get ⟨i, Nat.lt_of_succ_lt_succ hi⟩ := rfl
      rw [hget]
      have hne2 : inner2 ≠ [] := by
        rw [hinner2eq]
        simp
      have halias2 : ∀ k ∈ rest, (E2 k).Pkg = a := by
        intro k hk
        rw [hE2other k hk]
        exact halias k (List.mem_cons_of_mem k0 hk)
      have hfresh2 : ∀ k ∈ rest, assocFind inner2 (E2 k).PkgPath = none := by
        intro k hk
        rw [hE2other k hk, hinner2eq]
        refine assocFind_append_single_none _ _ _ _
          (hfresh k (List.mem_cons_of_mem k0 hk)) ?_
        intro he
        exact hk0 ((hinj k (List.mem_cons_of_mem k0 hk) k0 (List.mem_cons_self k0 rest) he) ▸ hk)
      have hinj2 : ∀ k1 ∈ rest, ∀ k2 ∈ rest, (E2 k1).PkgPath = (E2 k2).PkgPath → k1 = k2 := by
        intro k1 hk1 k2 hk2 hp
        rw [hE2other k1 hk1, hE2other k2 hk2] at hp
        exact hinj k1 (List.mem_cons_of_mem k0 hk1) k2 (List.mem_cons_of_mem k0 hk2) hp
      have := resolve_run a rest E2 inner2 hne2 hndr halias2 hfresh2 hinj2 i
        (Nat.lt_of_succ_lt_succ hi)
      rw [this]
      rw [hE2other _ (List.get_mem rest i (Nat.lt_of_succ_lt_succ hi))]
      have harith : inner2.length + i + 1 = inner.length + (i + 1) + 1 := by
        rw [hlen2]
        omega
      rw [harith]

theorem assocFind_single_ne {α : Type} (x k : String) (v : α) (h : k ≠ x) :
    assocFind [(x, v)] k = none := by
  simp [assocFind, List.find?, h.symm]

theorem resolveStep_first (E : String → Element) (k0 a : String) (ha : (E k0).Pkg = a) :
    resolveStep ⟨E, []⟩ k0 =
      ⟨fun k' => if k' = k0 then E k0 else E k', [(a, [((E k0).PkgPath, a)])]⟩ := by
  simp only [resolveStep, ha]
  have h0 : assocFind ([] : List (String × List (String × String))) a = none := rfl
  rw [h0]
  simp [assocSet]

theorem c4_resolve_aliases (E : String → Element) (order : List String) (a : String)
    (hnd : order.Nodup)
    (halias : ∀ k ∈ order, (E k).Pkg = a)
    (hpaths : ∀ k1 ∈ order, ∀ k2 ∈ order, (E k1).PkgPath = (E k2).PkgPath → k1 = k2) :
    ∀ i (hi : i < order.length),
      resolvePackageConflicts E order (order.get ⟨i, hi⟩) =
        { E (order.get ⟨i, hi⟩) with Pkg := aliasAt a i } := by
  cases order with
  | nil =>
    intro i hi
    cases hi
  | cons k0 rest =>
    intro i hi
    rcases List.nodup_cons.mp hnd with ⟨hk0, hndr⟩
    have ha0 : (E k0).Pkg = a := halias k0 (List.mem_cons_self k0 rest)
    have hfold : resolvePackageConflicts E (k0 :: rest) =
        (rest.foldl resolveStep (resolveStep ⟨E, []⟩ k0)).elems := rfl
    rw [hfold, resolveStep_first E k0 a ha0]
    have hE1 : (fun k' => if k' = k0 then E k0 else E k') = E := by
      funext k'
      by_cases h : k' = k0
      · rw [if_pos h, h]
      · rw [if_neg h]
    rw [hE1]
    have hfresh : ∀ k ∈ rest, assocFind [((E k0).PkgPath, a)] (E k).PkgPath = none := by
      intro k hk
      refine assocFind_single_ne _ _ _ ?_
      intro he
      exact hk0 ((hpaths k (List.mem_cons_of_mem k0 hk) k0 (List.mem_cons_self k0 rest) he) ▸ hk)
    have halias1 : ∀ k ∈ rest, (E k).Pkg = a :=
      fun k hk => halias k (List.mem_cons_of_mem k0 hk)
    have hinj1 : ∀ k1 ∈ rest, ∀ k2 ∈ rest, (E k1).PkgPath = (E k2).PkgPath → k1 = k2 :=
      fun k1 h1 k2 h2 hp =>
        hpaths k1 (List.mem_cons_of_mem k0 h1) k2 (List.mem_cons_of_mem k0 h2) hp
    cases i with
    | zero =>
      have hget : (k0 :: rest).get ⟨0, hi⟩ = k0 := rfl
      rw [hget, foldl_resolve_elems_not_mem rest _ k0 hk0]
      show E k0 = { E k0 with Pkg := aliasAt a 0 }
      unfold aliasAt
      rw [if_pos rfl, ← ha0]
    | succ i =>
      have hget : (k0 :: rest).get ⟨i + 1, hi⟩ = rest.get ⟨i, Nat.lt_of_succ_lt_succ hi⟩ := rfl
      rw [hget]
      have := resolve_run a rest E [((E k0).PkgPath, a)] (by simp) hndr halias1 hfresh hinj1
        i (Nat.lt_of_succ_lt_succ hi)
      rw [this]
      have harith : ([((E k0).PkgPath, a)].length : Nat) + i + 1 = i + 2 := by
        simp
        omega
      rw [harith]
      unfold aliasAt
      rw [if_neg (by omega)]

/-- C4: for every collection of N elements sharing one short namespace alias
with pairwise distinct fully-qualified namespace paths, processed in the
deterministic key order, the resolver assigns N pairwise distinct aliases:
the element first in the order keeps the unsuffixed alias and the later ones
get the alias plus the running collision count, starting at 2. -/
theorem alias_conflict_resolution (E : String → Element) (order : List String) (a : String)
    (hnd : order.Nodup)
    (halias : ∀ k ∈ order, (E k).Pkg = a)
    (hpaths : ∀ k1 ∈ order, ∀ k2 ∈ order, (E k1).PkgPath = (E k2).PkgPath → k1 = k2) :
    (∀ i (hi : i < order.length),
      resolvePackageConflicts E order (order.get ⟨i, hi⟩) =
        { E (order.get ⟨i, hi⟩) with Pkg := aliasAt a i }) ∧
    (∀ i j (hi : i < order.length) (hj : j < order.length), i ≠ j →
      (resolvePackageConflicts E order (order.get ⟨i, hi⟩)).Pkg ≠
        (resolvePackageConflicts E order (order.get ⟨j, hj⟩)).Pkg) := by
  have h1 := c4_resolve_aliases E order a hnd halias hpaths
  refine ⟨h1, ?_⟩
  intro i j hi hj hij
  rw [h1 i hi, h1 j hj]
  show aliasAt a i ≠ aliasAt a j
  exact aliasAt_inj a i j hij

theorem addElementToMap_comm (x y : Entry)
    (hxy : x.setName = y.setName → x.key = y.key → x.elem = y.elem) (m : Registry) :
    addElementToMap (addElementToMap m x) y = addElementToMap (addElementToMap m y) x := by
  funext s p
  unfold addElementToMap
  by_cases h1 : s = y.setName ∧ p = y.key
  · by_cases h2 : s = x.setName ∧ p = x.key
    · rw [if_pos h1, if_pos h2]
      have : x.elem = y.elem :=
        hxy (h2.1.symm.trans h1.1) (h2.2.symm.trans h1.2)
      rw [this]
    · rw [if_pos h1, if_neg h2, if_pos h1]
  · by_cases h2 : s = x.setName ∧ p = x.key
    · rw [if_neg h1, if_pos h2, if_pos h2]
    · rw [if_neg h1, if_neg h2, if_neg h1, if_neg h2]

theorem KeyFunctional_perm (l1 l2 : List Entry) (h : l1.Perm l2) (hf : KeyFunctional l1) :
    KeyFunctional l2 := by
  intro e1 h1 e2 h2 hs hk
  exact hf e1 (h.mem_iff.mpr h1) e2 (h.mem_iff.mpr h2) hs hk

theorem buildRegistry_perm (l1 l2 : List Entry) (h : l1.Perm l2) (hf : KeyFunctional l1) :
    buildRegistry l1 = buildRegistry l2 := by
  unfold buildRegistry
  refine h.foldl_eq' ?_ emptyRegistry
  intro x hx y hy z
  exact addElementToMap_comm x y (fun hs hk => hf x hx y hy hs hk) z

/-- C2: for a fixed immutable tree, the final Collection map is the same under
every file-visit order (`files1` against any permutation `files2`) and every
interleaving of the per-file scan tasks (any serialization `seq` of the
lock-protected insertions, i.e. any permutation of the contribution list),
provided the contributions are key-functional — which holds for a fixed tree,
where the element stored under a declaration path is determined by the
declaring file: two runs yield equal registries. -/
theorem scan_order_independent (cfg : SearcherCfg) (files1 files2 : List GoFile) (seq1 seq2 : List Entry)
    (hperm : files1.Perm files2)
    (h1 : seq1.Perm (scanContribs cfg files1))
    (h2 : seq2.Perm (scanContribs cfg files2))
    (hf : KeyFunctional (scanContribs cfg files1)) :
    buildRegistry seq1 = buildRegistry seq2 := by
  have hc : (scanContribs cfg files1).Perm (scanContribs cfg files2) :=
    hperm.flatMap_right (fileContribs cfg)
  have hf2 : KeyFunctional (scanContribs cfg files2) :=
    KeyFunctional_perm _ _ hc hf
  have e1 : buildRegistry seq1 = buildRegistry (scanContribs cfg files1) :=
    buildRegistry_perm _ _ h1 (KeyFunctional_perm _ _ h1.symm hf)
  have e2 : buildRegistry seq2 = buildRegistry (scanContribs cfg files2) :=
    buildRegistry_perm _ _ h2 (KeyFunctional_perm _ _ h2.symm hf2)
  rw [e1, e2]
  exact buildRegistry_perm _ _ hc hf

/-- Witness for C2: scanning two concrete files in either order builds the
same registry. -/
theorem scan_order_independent_witness :
    buildRegistry (scanContribs ⟨"wire", fun p => "m/" ++ p⟩
        [⟨"a.go", ["// @autowire(set=zoo)"],
          some ⟨"a", [], [GoDecl.funcDecl "@autowire(set=zoo)\n" "NewA"], [("NewA", ObjKind.funObj)], []⟩⟩,
         ⟨"b.go", ["// @autowire(set=zoo)"],
          some ⟨"b", [], [GoDecl.funcDecl "@autowire(set=zoo)\n" "NewB"], [("NewB", ObjKind.funObj)], []⟩⟩]) =
      buildRegistry (scanContribs ⟨"wire", fun p => "m/" ++ p⟩
        [⟨"b.go", ["// @autowire(set=zoo)"],
          some ⟨"b", [], [GoDecl.funcDecl "@autowire(set=zoo)\n" "NewB"], [("NewB", ObjKind.funObj)], []⟩⟩,
         ⟨"a.go", ["// @autowire(set=zoo)"],
          some ⟨"a", [], [GoDecl.funcDecl "@autowire(set=zoo)\n" "NewA"], [("NewA", ObjKind.funObj)], []⟩⟩]) :=
  scan_order_independent _ _ _ _ _ (by decide) (List.Perm.refl _) (List.Perm.refl _) (by decide)

/-- Witness for C4: three same-alias elements receive `p`, `p2`, `p3`. -/
theorem alias_conflict_resolution_witness :
    (let E : String → Element := fun k =>
        if k = "k1" then ⟨"A", "p", "m/p1", "", [], [], false, false⟩
        else if k = "k2" then ⟨"B", "p", "m/p2", "", [], [], false, false⟩
        else ⟨"C", "p", "m/p3", "", [], [], false, false⟩
     let order : List String := ["k1", "k2", "k3"]
     (∀ i (hi : i < order.length),
        resolvePackageConflicts E order (order.get ⟨i, hi⟩) =
          { E (order.get ⟨i, hi⟩) with Pkg := aliasAt "p" i }) ∧
     (∀ i j (hi : i < order.length) (hj : j < order.length), i ≠ j →
        (resolvePackageConflicts E order (order.get ⟨i, hi⟩)).Pkg ≠
          (resolvePackageConflicts E order (order.get ⟨j, hj⟩)).Pkg)) :=
  alias_conflict_resolution _ _ "p" (by decide) (by decide) (by decide)

end Gutowire
